import Mathlib

/-
Verification of the brian-clone ingestion pipeline.

The Python sources under src/api are shallowly embedded below:
  - `chunk_text_with_overlap`  (src/api/youtube-transcripts/index.py, lines 65-92;
    the copy in src/api/medium-articles.py lines 53-86 computes the same function:
    its extra `if last_sentence` / `if current_chunk` guards are vacuous because the
    closing branch requires `current_chunk` nonempty and sentences are nonempty)
  - `fetch_transcript_text`, `fetch_transcripts_batched`, `build_chunks_for_qdrant`,
    `sync_transcripts`, `get_existing_transcript_video_ids`, `verify_auth`
    (src/api/youtube-transcripts/index.py)
  - `process_articles` (src/api/medium-articles.py)

Network calls (YouTube API, transcript API, OpenAI, Qdrant, HTTP GET) are modelled
as explicit function parameters (oracles); `os.getenv` values are Option String
parameters; machine-generated UUIDs and wall-clock timestamps, which no claim
refers to, are omitted from the embedded payloads.
-/

namespace BrianClone

/-! ## Character classes

Python's `\s` and `str.strip()` whitespace, restricted to the ASCII range
(Unicode-only whitespace characters are not modelled). -/

def isWs (c : Char) : Bool :=
  c = ' ' || c = '\t' || c = '\n' || c = '\r' || c = '\x0b' || c = '\x0c'

def isPunct (c : Char) : Bool :=
  c = '.' || c = '!' || c = '?'

def punctHead : List Char → Bool
  | [] => false
  | c :: _ => isPunct c

/-- Embedding of `re.split(r"(?<=[.!?])\s+", text)`: scan left to right; a match
is a maximal whitespace run whose immediately preceding character is one of
`.` `!` `?`; the pieces between matches are returned.  A match ending at the end
of the string leaves a trailing empty piece, exactly as `re.split` does.
`out` holds the finished pieces, `acc` the current piece reversed, and
`sep = true` means we are inside the whitespace run of a match (in which case a
new piece has not started yet, so the lookbehind at the first character after
the run sees whitespace and no new match can start there). -/
def splitAux (out : List (List Char)) (acc : List Char) (sep : Bool) :
    List Char → List (List Char)
  | [] => out ++ [acc.reverse]
  | c :: rest =>
    if sep then
      if isWs c then splitAux out [] true rest
      else splitAux out [c] false rest
    else
      if isWs c && punctHead acc then splitAux (out ++ [acc.reverse]) [] true rest
      else splitAux out (c :: acc) false rest

def sentSplit (text : String) : List String :=
  (splitAux [] [] false text.toList).map List.asString

/-- Embedding of Python `str.strip()` (ASCII whitespace). -/
def pstrip (s : String) : String :=
  (((s.toList.dropWhile isWs).reverse.dropWhile isWs).reverse).asString

/-- Lines 66-67 of the chunker: `re.split`, then
`[s.strip() for s in sentences if s.strip()]`. -/
def sentencesOf (text : String) : List String :=
  ((sentSplit text).map pstrip).filter (fun s => !s.isEmpty)

/-- Embedding of `" ".join(l)`. -/
def joinSp : List String → String
  | [] => ""
  | [s] => s
  | s :: l => s ++ " " ++ joinSp l

/-! ## The chunker (chunk_text_with_overlap) -/

structure Chunk where
  text : String
  index : Nat
  total_chunks : Nat
deriving DecidableEq, Repr

/-- State of the loop in `chunk_text_with_overlap`:
`(chunks, current_chunk, current_length)`. -/
abbrev CState := List (String × Nat) × List String × Nat

/-- One iteration of the `for sentence in sentences` loop (lines 75-84). -/
def chunkStep (max_chunk_size : Nat) (st : CState) (sentence : String) : CState :=
  if st.2.2 + sentence.length > max_chunk_size ∧ st.2.1 ≠ [] then
    (st.1 ++ [(joinSp st.2.1, st.1.length)],
     [st.2.1.getLastD "", sentence],
     (st.2.1.getLastD "").length + sentence.length + 1)
  else
    (st.1, st.2.1 ++ [sentence],
     st.2.2 + sentence.length + (if 1 < (st.2.1 ++ [sentence]).length then 1 else 0))

def CHUNK_SIZE : Nat := 1500

/-- Embedding of `chunk_text_with_overlap` (lines 65-92). -/
def chunk_text_with_overlap (text : String) (max_chunk_size : Nat) : List Chunk :=
  let sentences := sentencesOf text
  if sentences = [] then []
  else
    let st := sentences.foldl (chunkStep max_chunk_size) ([], [], 0)
    let chunks := if st.2.1 ≠ [] then st.1 ++ [(joinSp st.2.1, st.1.length)] else st.1
    chunks.map (fun p => { text := p.1, index := p.2, total_chunks := chunks.length })

/-! ## Ghost version of the chunker loop

`lstep` is the same fold as `chunkStep` except that a closed chunk is kept as
its list of sentences instead of being joined into a single string; the branch
condition and the length bookkeeping are identical, so the two folds move in
lock step (`rel_main` below).  This exposes the sentence
decomposition of every chunk, which the coverage/bound claims are about. -/
abbrev LState := List (List String) × List String × Nat

def lstep (max_chunk_size : Nat) (st : LState) (sentence : String) : LState :=
  if st.2.2 + sentence.length > max_chunk_size ∧ st.2.1 ≠ [] then
    (st.1 ++ [st.2.1],
     [st.2.1.getLastD "", sentence],
     (st.2.1.getLastD "").length + sentence.length + 1)
  else
    (st.1, st.2.1 ++ [sentence],
     st.2.2 + sentence.length + (if 1 < (st.2.1 ++ [sentence]).length then 1 else 0))

/-- The sentence lists underlying the chunks of `chunk_text_with_overlap`:
the same greedy loop, with the final flush of `current_chunk`. -/
def chunkParts (max_chunk_size : Nat) (sentences : List String) : List (List String) :=
  let st := sentences.foldl (lstep max_chunk_size) ([], [], 0)
  if st.2.1 ≠ [] then st.1 ++ [st.2.1] else st.1

/-- Well-formedness of the sequence of per-chunk sentence lists: every chunk is
nonempty, and every chunk after the first starts with the final sentence of the
previous chunk (the carried overlap) followed by at least one fresh sentence. -/
def chainOK : List (List String) → Prop
  | [] => True
  | [p] => p ≠ []
  | p :: q :: rest => p ≠ [] ∧ q.headD "" = p.getLastD "" ∧ 2 ≤ q.length ∧ chainOK (q :: rest)

/-- Size discipline of one chunk `p` with overlap allowance `k`: whenever its
final sentence fits in `max_chunk_size` by itself, the joined chunk text
exceeds `max_chunk_size` by at most one separator character plus `k`. -/
def partBound (max_chunk_size k : Nat) (p : List String) : Prop :=
  (p.getLastD "").length ≤ max_chunk_size →
    (joinSp p).length ≤ max_chunk_size + 1 + k

/-- Every chunk respects `partBound`: the first chunk with no allowance, every
later chunk with an allowance of its leading overlap sentence's length. -/
def boundsOK (max_chunk_size : Nat) : List (List String) → Prop
  | [] => True
  | p :: rest =>
    partBound max_chunk_size 0 p ∧
    ∀ q ∈ rest, partBound max_chunk_size (q.headD "").length q

/-! ## Helper lemmas about joinSp and list edits -/

theorem joinSp_cons (s a : String) (l : List String) :
    joinSp (s :: a :: l) = s ++ " " ++ joinSp (a :: l) := rfl

theorem joinSp_concat (l : List String) (s : String) :
    joinSp (l ++ [s]) = if l = [] then s else joinSp l ++ " " ++ s := by
  induction l with
  | nil => rfl
  | cons a t ih =>
    cases t with
    | nil => rfl
    | cons b t2 =>
      have e1 : joinSp ((a :: b :: t2) ++ [s]) = a ++ " " ++ joinSp ((b :: t2) ++ [s]) := rfl
      rw [e1, ih]
      simp [joinSp_cons, String.append_assoc]

theorem length_space : (" " : String).length = 1 := rfl

theorem length_joinSp_concat (l : List String) (s : String) :
    (joinSp (l ++ [s])).length
      = (if l = [] then 0 else (joinSp l).length + 1) + s.length := by
  rw [joinSp_concat]
  split <;> simp [String.length_append, length_space]

theorem headD_concat {α : Type} (l : List α) (h : l ≠ []) (a d : α) :
    (l ++ [a]).headD d = l.headD d := by
  cases l with
  | nil => exact absurd rfl h
  | cons x t => rfl

theorem tail_concat {α : Type} (l : List α) (h : l ≠ []) (a : α) :
    (l ++ [a]).tail = l.tail ++ [a] := by
  cases l with
  | nil => exact absurd rfl h
  | cons x t => rfl

theorem drop1_concat {α : Type} (l : List α) (h : l ≠ []) (a : α) :
    (l ++ [a]).drop 1 = l.drop 1 ++ [a] := by
  cases l with
  | nil => exact absurd rfl h
  | cons x t => simp

theorem chainOK_concat (c : List String) (hc : c ≠ []) :
    ∀ P : List (List String), chainOK P →
      (P ≠ [] → c.headD "" = (P.getLastD []).getLastD "" ∧ 2 ≤ c.length) →
      chainOK (P ++ [c]) := by
  intro P
  induction P with
  | nil => intro _ _; exact hc
  | cons p t ih =>
    intro hP hlink
    cases t with
    | nil =>
      obtain ⟨hl1, hl2⟩ := hlink (by simp)
      refine ⟨hP, ?_, hl2, hc⟩
      simpa using hl1
    | cons q rest =>
      obtain ⟨h1, h2, h3, h4⟩ := hP
      refine ⟨h1, h2, h3, ih h4 ?_⟩
      intro _
      refine ⟨?_, (hlink (by simp)).2⟩
      have h5 := (hlink (by simp)).1
      simp only [List.getLastD_cons] at h5 ⊢
      exact h5

theorem boundsOK_concat {m : Nat} {P : List (List String)} {c : List String}
    (hP : boundsOK m P) (h0 : P = [] → partBound m 0 c)
    (h1 : P ≠ [] → partBound m (c.headD "").length c) : boundsOK m (P ++ [c]) := by
  cases P with
  | nil => exact ⟨h0 rfl, by simp⟩
  | cons p rest =>
    refine ⟨hP.1, ?_⟩
    intro q hq
    rcases List.mem_append.mp hq with h | h
    · exact hP.2 q h
    · rw [List.mem_singleton] at h
      subst h
      exact h1 (by simp)

/-! ## The loop invariant of the chunker fold -/

/-- Invariant maintained by `lstep` over the prefix `processed` of the sentence
list: the closed chunks plus the open chunk partition `processed` (with the
one-sentence overlap repeated at each chunk boundary), `current_length` is the
length of the joined open chunk, and every chunk respects the greedy size
discipline. -/
structure LoopInv (m : Nat) (processed : List String) (st : LState) : Prop where
  curNil : st.2.1 = [] → st.1 = [] ∧ processed = []
  partsNil : st.1 = [] → st.2.1 = processed
  partsCons : st.1 ≠ [] →
    2 ≤ st.2.1.length ∧
    st.2.1.headD "" = (st.1.getLastD []).getLastD "" ∧
    st.1.headD [] ++ (st.1.tail.map (fun q => q.drop 1)).flatten ++ st.2.1.drop 1
      = processed
  chainP : chainOK st.1
  lenEq : st.2.2 = if st.2.1 = [] then 0 else (joinSp st.2.1).length
  boundsP : boundsOK m st.1
  curBound : (st.2.1.getLastD "").length ≤ m →
    st.2.2 ≤ m + 1 + (if st.1 = [] then 0 else (st.2.1.headD "").length)

theorem loopInv_init (m : Nat) : LoopInv m [] ([], [], 0) := by
  refine ⟨fun _ => ⟨rfl, rfl⟩, fun _ => rfl, fun h => absurd rfl h, trivial, by simp,
    trivial, fun _ => by simp⟩

theorem loopInv_step {m : Nat} {processed : List String} {st : LState}
    (h : LoopInv m processed st) (s : String) :
    LoopInv m (processed ++ [s]) (lstep m st s) := by
  obtain ⟨P, cur, n⟩ := st
  have hcurNil : cur = [] → P = [] ∧ processed = [] := h.curNil
  have hpartsNil : P = [] → cur = processed := h.partsNil
  have hpartsCons : P ≠ [] →
      2 ≤ cur.length ∧
      cur.headD "" = (P.getLastD []).getLastD "" ∧
      P.headD [] ++ (P.tail.map (fun q => q.drop 1)).flatten ++ cur.drop 1
        = processed := h.partsCons
  have hchain : chainOK P := h.chainP
  have hlenEq : n = if cur = [] then 0 else (joinSp cur).length := h.lenEq
  have hbounds : boundsOK m P := h.boundsP
  have hcurBound : (cur.getLastD "").length ≤ m →
      n ≤ m + 1 + (if P = [] then 0 else (cur.headD "").length) := h.curBound
  clear h
  unfold lstep
  by_cases hcond : n + s.length > m ∧ cur ≠ []
  · rw [if_pos hcond]
    dsimp only
    obtain ⟨hover, hcur⟩ := hcond
    have hlen : n = (joinSp cur).length := by rwa [if_neg hcur] at hlenEq
    refine ⟨?_, ?_, ?_, ?_, ?_, ?_, ?_⟩
    · intro hh; simp at hh
    · intro hh; simp at hh
    · intro _
      refine ⟨by simp, ?_, ?_⟩
      · simp [List.getLastD_concat]
      · show (P ++ [cur]).headD []
            ++ ((P ++ [cur]).tail.map (fun q => q.drop 1)).flatten
            ++ ([cur.getLastD "", s].drop 1) = processed ++ [s]
        by_cases hP : P = []
        · subst hP
          have hcov : cur = processed := hpartsNil rfl
          simp [hcov]
        · have hcov := (hpartsCons hP).2.2
          rw [headD_concat P hP, tail_concat P hP]
          simp only [List.map_append, List.flatten_append, List.map_cons,
            List.map_nil, List.flatten_cons, List.flatten_nil, List.drop_one,
            List.append_nil]
          rw [← hcov]
          simp [List.append_assoc]
    · exact chainOK_concat cur hcur P hchain
        (fun hP => ⟨(hpartsCons hP).2.1, (hpartsCons hP).1⟩)
    · show (cur.getLastD "").length + s.length + 1
          = if ([cur.getLastD "", s] : List String) = [] then 0
            else (joinSp [cur.getLastD "", s]).length
      rw [if_neg (by simp)]
      have e : joinSp [cur.getLastD "", s] = cur.getLastD "" ++ " " ++ s := rfl
      rw [e]
      simp [String.length_append, length_space]
      omega
    · refine boundsOK_concat hbounds ?_ ?_
      · intro hP
        intro hshort
        have hb := hcurBound hshort
        rw [if_pos hP] at hb
        omega
      · intro hP
        intro hshort
        have hb := hcurBound hshort
        rw [if_neg hP] at hb
        omega
    · intro hshort
      simp only [List.getLastD_cons, List.getLastD_nil] at hshort
      show (cur.getLastD "").length + s.length + 1
          ≤ m + 1 + (if P ++ [cur] = [] then 0 else (([cur.getLastD "", s]).headD "").length)
      have hne : P ++ [cur] ≠ [] := by simp
      rw [if_neg hne]
      simp only [List.headD_cons]
      omega
  · rw [if_neg hcond]
    dsimp only
    by_cases hcur : cur = []
    · subst hcur
      obtain ⟨hP, hproc⟩ := hcurNil rfl
      subst hP; subst hproc
      have hn : n = 0 := by rwa [if_pos rfl] at hlenEq
      subst hn
      refine ⟨?_, ?_, ?_, trivial, ?_, trivial, ?_⟩
      · intro hh; simp at hh
      · intro _; rfl
      · intro hh; exact absurd rfl hh
      · show 0 + s.length + (if 1 < (([] : List String) ++ [s]).length then 1 else 0)
            = if ([] : List String) ++ [s] = [] then 0 else (joinSp ([] ++ [s])).length
        simp [joinSp]
      · intro hshort
        show 0 + s.length + (if 1 < (([] : List String) ++ [s]).length then 1 else 0)
            ≤ m + 1 + (if ([] : List (List String)) = [] then 0
              else ((([] : List String) ++ [s]).headD "").length)
        simp only [List.nil_append, List.getLastD_cons, List.getLastD_nil] at hshort
        rw [if_pos rfl]
        simp
        omega
    · have hle : n + s.length ≤ m := by
        by_contra hgt
        exact hcond ⟨by omega, hcur⟩
      have hlen2 : 1 < (cur ++ [s]).length := by
        cases cur with
        | nil => exact absurd rfl hcur
        | cons x t => simp
      rw [if_pos hlen2]
      have hn : n = (joinSp cur).length := by rwa [if_neg hcur] at hlenEq
      refine ⟨?_, ?_, ?_, hchain, ?_, hbounds, ?_⟩
      · intro hh; simp at hh
      · intro hP
        rw [hpartsNil hP]
      · intro hP
        obtain ⟨hl2, hhead, hcov⟩ := hpartsCons hP
        refine ⟨?_, ?_, ?_⟩
        · rw [List.length_append]; omega
        · rw [headD_concat cur hcur]; exact hhead
        · rw [drop1_concat cur hcur, ← hcov]
          simp [List.append_assoc]
      · show n + s.length + 1
            = if cur ++ [s] = [] then 0 else (joinSp (cur ++ [s])).length
        have hne : cur ++ [s] ≠ [] := by simp
        rw [if_neg hne, length_joinSp_concat, if_neg hcur]
        omega
      · intro _
        show n + s.length + 1 ≤ m + 1 + _
        have h9 : n + s.length + 1 ≤ m + 1 := by omega
        exact le_trans h9 (Nat.le_add_right _ _)

theorem loopInv_fold {m : Nat} :
    ∀ (l : List String) {processed : List String} {st : LState},
      LoopInv m processed st → LoopInv m (processed ++ l) (l.foldl (lstep m) st) := by
  intro l
  induction l with
  | nil => intro processed st h; simpa using h
  | cons s t ih =>
    intro processed st h
    have h3 := ih (loopInv_step h s)
    simpa [List.append_assoc] using h3

theorem loopInv_main (m : Nat) (l : List String) :
    LoopInv m l (l.foldl (lstep m) ([], [], 0)) := by
  simpa using loopInv_fold l (loopInv_init m)

/-! ## Correspondence between the real fold and the ghost fold -/

/-- The real loop state and the ghost state agree: closed chunk texts are the
joins of the ghost's sentence lists, stored indices are consecutive positions,
and the open chunk and running length coincide. -/
def Rel (c : CState) (p : LState) : Prop :=
  c.1.map Prod.fst = p.1.map joinSp ∧
  c.1.map Prod.snd = List.range c.1.length ∧
  c.2.1 = p.2.1 ∧ c.2.2 = p.2.2

theorem rel_step {m : Nat} {c : CState} {p : LState} (h : Rel c p) (s : String) :
    Rel (chunkStep m c s) (lstep m p s) := by
  obtain ⟨cs, cc, cn⟩ := c
  obtain ⟨ps, pc, pn⟩ := p
  obtain ⟨h1, h2, h3, h4⟩ := h
  dsimp only at h1 h2 h3 h4
  subst h3
  subst h4
  have hlength : cs.length = ps.length := by
    have := congrArg List.length h1
    simpa using this
  unfold chunkStep lstep
  by_cases hcond : cn + s.length > m ∧ cc ≠ []
  · rw [if_pos hcond, if_pos hcond]
    refine ⟨?_, ?_, rfl, rfl⟩
    · simp [h1]
    · dsimp only
      rw [List.map_append, h2, List.length_append]
      simp [List.range_succ]
  · rw [if_neg hcond, if_neg hcond]
    exact ⟨h1, h2, rfl, rfl⟩

theorem rel_fold {m : Nat} :
    ∀ (l : List String) {c : CState} {p : LState}, Rel c p →
      Rel (l.foldl (chunkStep m) c) (l.foldl (lstep m) p) := by
  intro l
  induction l with
  | nil => intro c p h; exact h
  | cons s t ih => intro c p h; exact ih (rel_step h s)

theorem rel_main (m : Nat) (l : List String) :
    Rel (l.foldl (chunkStep m) ([], [], 0)) (l.foldl (lstep m) ([], [], 0)) :=
  rel_fold l ⟨rfl, rfl, rfl, rfl⟩

/-- The closed chunks of `chunk_text_with_overlap` after the final flush, as
`(text, index)` pairs, before `total_chunks` is stamped on. -/
def chunkFinal (max_chunk_size : Nat) (sentences : List String) : List (String × Nat) :=
  let st := sentences.foldl (chunkStep max_chunk_size) ([], [], 0)
  if st.2.1 ≠ [] then st.1 ++ [(joinSp st.2.1, st.1.length)] else st.1

theorem chunk_text_as_final (text : String) (m : Nat) :
    chunk_text_with_overlap text m
      = (chunkFinal m (sentencesOf text)).map
          (fun p => { text := p.1, index := p.2,
                      total_chunks := (chunkFinal m (sentencesOf text)).length }) := by
  by_cases hl : sentencesOf text = []
  · simp only [chunk_text_with_overlap, chunkFinal, hl]
    rfl
  · simp only [chunk_text_with_overlap, chunkFinal, if_neg hl]

theorem chunkFinal_fst (m : Nat) (l : List String) :
    (chunkFinal m l).map Prod.fst = (chunkParts m l).map joinSp := by
  obtain ⟨h1, h2, h3, h4⟩ := rel_main m l
  simp only [chunkFinal, chunkParts]
  generalize hc : l.foldl (chunkStep m) ([], [], 0) = cst at h1 h2 h3 h4 ⊢
  generalize hp : l.foldl (lstep m) ([], [], 0) = pst at h1 h3 h4 ⊢
  obtain ⟨cs, cc, cn⟩ := cst
  obtain ⟨ps, pc, pn⟩ := pst
  dsimp only at h1 h2 h3 h4 ⊢
  subst h3
  by_cases hcc : cc = []
  · rw [if_neg (by simpa using hcc), if_neg (by simpa using hcc)]
    exact h1
  · rw [if_pos hcc, if_pos hcc]
    rw [List.map_append, List.map_append, h1]
    rfl

theorem chunkFinal_snd (m : Nat) (l : List String) :
    (chunkFinal m l).map Prod.snd = List.range (chunkFinal m l).length := by
  obtain ⟨h1, h2, h3, h4⟩ := rel_main m l
  simp only [chunkFinal]
  generalize hc : l.foldl (chunkStep m) ([], [], 0) = cst at h1 h2 h3 h4 ⊢
  obtain ⟨cs, cc, cn⟩ := cst
  dsimp only at h1 h2 h3 h4 ⊢
  by_cases hcc : cc = []
  · rw [if_neg (by simpa using hcc)]
    exact h2
  · rw [if_pos hcc]
    rw [List.map_append, h2, List.length_append]
    simp [List.range_succ]

theorem chunkFinal_nil_of_nil (m : Nat) : chunkFinal m [] = [] := rfl

theorem chunkParts_nil_of_nil (m : Nat) : chunkParts m [] = [] := rfl

/-- Structural facts about `chunkParts` on a nonempty sentence list: stripping
the leading (overlap) sentence of every part but the first and concatenating
recovers the sentence list; consecutive parts overlap in exactly the previous
part's last sentence; and every part obeys the greedy size bound. -/
theorem chunkParts_props (m : Nat) (l : List String) (hl : l ≠ []) :
    (chunkParts m l).headD []
        ++ (((chunkParts m l).tail.map (fun q => q.drop 1)).flatten) = l
      ∧ chainOK (chunkParts m l) ∧ boundsOK m (chunkParts m l) := by
  obtain ⟨⟨P, cur, n⟩, hst⟩ : ∃ st : LState, l.foldl (lstep m) ([], [], 0) = st :=
    ⟨_, rfl⟩
  have h := loopInv_main m l
  rw [hst] at h
  have hcurNil : cur = [] → P = [] ∧ l = [] := h.curNil
  have hpartsNil : P = [] → cur = l := h.partsNil
  have hpartsCons : P ≠ [] →
      2 ≤ cur.length ∧
      cur.headD "" = (P.getLastD []).getLastD "" ∧
      P.headD [] ++ (P.tail.map (fun q => q.drop 1)).flatten ++ cur.drop 1 = l :=
    h.partsCons
  have hchain : chainOK P := h.chainP
  have hlenEq : n = if cur = [] then 0 else (joinSp cur).length := h.lenEq
  have hbounds : boundsOK m P := h.boundsP
  have hcurBound : (cur.getLastD "").length ≤ m →
      n ≤ m + 1 + (if P = [] then 0 else (cur.headD "").length) := h.curBound
  have hcur : cur ≠ [] := fun hc => hl (hcurNil hc).2
  have hparts : chunkParts m l = P ++ [cur] := by
    simp only [chunkParts]
    rw [hst]
    dsimp only
    rw [if_pos hcur]
  rw [hparts]
  have hlen : n = (joinSp cur).length := by rwa [if_neg hcur] at hlenEq
  refine ⟨?_, ?_, ?_⟩
  · by_cases hP : P = []
    · subst hP
      have hcov : cur = l := hpartsNil rfl
      simp [hcov]
    · have hcov := (hpartsCons hP).2.2
      rw [headD_concat P hP, tail_concat P hP]
      simp only [List.map_append, List.flatten_append, List.map_cons,
        List.map_nil, List.flatten_cons, List.flatten_nil, List.drop_one,
        List.append_nil]
      rw [← hcov]
      simp [List.append_assoc]
  · exact chainOK_concat cur hcur P hchain
      (fun hP => ⟨(hpartsCons hP).2.1, (hpartsCons hP).1⟩)
  · refine boundsOK_concat hbounds ?_ ?_
    · intro hP hshort
      have hb := hcurBound hshort
      rw [if_pos hP] at hb
      omega
    · intro hP hshort
      have hb := hcurBound hshort
      rw [if_neg hP] at hb
      omega

theorem chunk_texts_eq (text : String) (m : Nat) :
    (chunk_text_with_overlap text m).map Chunk.text
      = (chunkParts m (sentencesOf text)).map joinSp := by
  rw [chunk_text_as_final, List.map_map]
  exact chunkFinal_fst m (sentencesOf text)

theorem chunk_indices_eq (text : String) (m : Nat) :
    (chunk_text_with_overlap text m).map Chunk.index
      = List.range (chunk_text_with_overlap text m).length := by
  rw [chunk_text_as_final, List.map_map, List.length_map]
  exact chunkFinal_snd m (sentencesOf text)

/-! ## Non-emptiness of the chunker output

The sentence splitter never loses a leading non-whitespace character: the
first piece it emits starts with the first character of the text, so a text
whose first character is not whitespace has a non-empty first sentence and the
chunker returns at least one chunk.  This shows the `if not chunks: continue`
guard of `build_chunks_for_qdrant` is unreachable, because the chunked text
always starts with the `"# "` title heading. -/

theorem splitAux_extends :
    ∀ (rest : List Char) (out : List (List Char)) (acc : List Char) (sep : Bool),
      ∃ tail, splitAux out acc sep rest = out ++ tail ∧ tail ≠ [] := by
  intro rest
  induction rest with
  | nil => intro out acc sep; exact ⟨[acc.reverse], rfl, by simp⟩
  | cons c r2 ih =>
    intro out acc sep
    cases sep with
    | true =>
      rw [show splitAux out acc true (c :: r2)
          = if isWs c then splitAux out [] true r2 else splitAux out [c] false r2
        from rfl]
      by_cases hw : isWs c = true
      · rw [if_pos hw]
        exact ih out [] true
      · rw [if_neg hw]
        exact ih out [c] false
    | false =>
      rw [show splitAux out acc false (c :: r2)
          = if isWs c && punctHead acc then splitAux (out ++ [acc.reverse]) [] true r2
            else splitAux out (c :: acc) false r2
        from rfl]
      by_cases hc : (isWs c && punctHead acc) = true
      · rw [if_pos hc]
        obtain ⟨tail, htail, hne⟩ := ih (out ++ [acc.reverse]) [] true
        refine ⟨acc.reverse :: tail, ?_, by simp⟩
        rw [htail]
        simp
      · rw [if_neg hc]
        exact ih out (c :: acc) false

theorem splitAux_first :
    ∀ (rest : List Char) (out : List (List Char)) (acc : List Char), acc ≠ [] →
      ∃ suffix t2, splitAux out acc false rest = out ++ (acc.reverse ++ suffix) :: t2 := by
  intro rest
  induction rest with
  | nil =>
    intro out acc _
    exact ⟨[], [], by simp [splitAux]⟩
  | cons c r2 ih =>
    intro out acc hacc
    rw [show splitAux out acc false (c :: r2)
        = if isWs c && punctHead acc then splitAux (out ++ [acc.reverse]) [] true r2
          else splitAux out (c :: acc) false r2 from rfl]
    by_cases hc : (isWs c && punctHead acc) = true
    · rw [if_pos hc]
      obtain ⟨tail, htail, hne⟩ := splitAux_extends r2 (out ++ [acc.reverse]) [] true
      cases tail with
      | nil => exact absurd rfl hne
      | cons p t2 =>
        refine ⟨[], p :: t2, ?_⟩
        rw [htail]
        simp
    · rw [if_neg hc]
      obtain ⟨suffix, t2, hs⟩ := ih out (c :: acc) (by simp)
      refine ⟨c :: suffix, t2, ?_⟩
      rw [hs]
      simp

theorem pstrip_cons_ne_empty (c : Char) (l : List Char) (hws : isWs c = false) :
    pstrip ((c :: l).asString) ≠ "" := by
  unfold pstrip
  have e : ((c :: l).asString).toList = c :: l := rfl
  rw [e]
  rw [List.dropWhile_cons_of_neg (by simp [hws])]
  intro hcontra
  have hX : (((c :: l).reverse.dropWhile isWs).reverse : List Char) = [] := by
    have h9 := congrArg String.data hcontra
    exact h9
  have hX2 : (c :: l).reverse.dropWhile isWs = [] :=
    List.reverse_eq_nil_iff.mp hX
  have hall := List.dropWhile_eq_nil_iff.mp hX2
  have h9 := hall c (by simp)
  rw [hws] at h9
  exact absurd h9 (by decide)

theorem sentencesOf_ne_nil_of_head (text : String) (c : Char) (r : List Char)
    (htext : text.toList = c :: r) (hws : isWs c = false) :
    sentencesOf text ≠ [] := by
  unfold sentencesOf sentSplit
  rw [htext]
  have hcond : (isWs c && punctHead ([] : List Char)) = false := by
    simp [punctHead]
  rw [show splitAux [] [] false (c :: r)
      = if isWs c && punctHead ([] : List Char)
        then splitAux ([] ++ [([] : List Char).reverse]) [] true r
        else splitAux [] [c] false r from rfl]
  rw [hcond]
  rw [if_neg (by decide)]
  obtain ⟨suffix, t2, hs⟩ := splitAux_first r [] [c] (by simp)
  rw [hs]
  have hrev : (([c] : List Char).reverse ++ suffix) = c :: suffix := by simp
  rw [List.nil_append, hrev]
  rw [List.map_cons, List.map_cons, List.filter_cons]
  rw [if_pos ?hpos]
  case hpos =>
    have hne := pstrip_cons_ne_empty c suffix hws
    cases hh : (pstrip ((c :: suffix).asString)).isEmpty
    · simp
    · exact absurd ((String.isEmpty_iff _).mp hh) hne
  simp

theorem chunk_text_ne_nil (text : String) (m : Nat) (h : sentencesOf text ≠ []) :
    chunk_text_with_overlap text m ≠ [] := by
  intro hc
  have h1 := chunk_texts_eq text m
  rw [hc] at h1
  have h2 : chunkParts m (sentencesOf text) = [] := by
    cases hp : chunkParts m (sentencesOf text) with
    | nil => rfl
    | cons a t =>
      rw [hp] at h1
      exact absurd h1 (by simp)
  have h3 := (chunkParts_props m (sentencesOf text) h).1
  rw [h2] at h3
  simp at h3
  exact h h3

/-! ## Claim theorems about the chunker -/

/-- C1 (chunk coverage): for every input text with at least one non-empty
sentence after splitting and trimming, the chunk texts returned by
`chunk_text_with_overlap` are, in index order, exactly the space-joins of the
sentence lists `chunkParts`; stripping the one leading overlapping sentence
from every such list but the first and concatenating reconstructs the original
sentence sequence exactly; and `chainOK` states that the stripped leading
sentence of each chunk is precisely the final sentence carried over from the
previous chunk. -/
theorem chunk_coverage (text : String) (max_chunk_size : Nat)
    (h : sentencesOf text ≠ []) :
    (chunk_text_with_overlap text max_chunk_size).map Chunk.text
        = (chunkParts max_chunk_size (sentencesOf text)).map joinSp
      ∧ (chunkParts max_chunk_size (sentencesOf text)).headD []
          ++ (((chunkParts max_chunk_size (sentencesOf text)).tail.map
                (fun q => q.drop 1)).flatten)
          = sentencesOf text
      ∧ chainOK (chunkParts max_chunk_size (sentencesOf text)) := by
  obtain ⟨h1, h2, h3⟩ := chunkParts_props max_chunk_size (sentencesOf text) h
  exact ⟨chunk_texts_eq text max_chunk_size, h1, h2⟩

/-- Witness for C1 at the concrete input `"aa. bb."` with `max_chunk_size = 4`,
which produces two chunks overlapping in the sentence `"aa."`. -/
theorem chunk_coverage_witness :
    sentencesOf "aa. bb." ≠ []
      ∧ ((chunk_text_with_overlap "aa. bb." 4).map Chunk.text
            = (chunkParts 4 (sentencesOf "aa. bb.")).map joinSp
          ∧ (chunkParts 4 (sentencesOf "aa. bb.")).headD []
              ++ (((chunkParts 4 (sentencesOf "aa. bb.")).tail.map
                    (fun q => q.drop 1)).flatten)
              = sentencesOf "aa. bb."
          ∧ chainOK (chunkParts 4 (sentencesOf "aa. bb."))) :=
  ⟨by decide, chunk_coverage "aa. bb." 4 (by decide)⟩

/-- C2 counterexample: with `max_chunk_size = 4` the input `"aa. bbbbbbbb"`
yields a second chunk `"aa. bbbbbbbb"` of 12 characters.  That chunk contains
two sentences, so it is not exempted by the claim's single-sentence exception,
yet its length exceeds `max_chunk_size` plus the length of the carried overlap
sentence `"aa."` (4 + 3 = 7 < 12): the claimed bound fails because the sentence
that triggers the overflow is packed into the new chunk together with the
overlap sentence regardless of its own size. -/
theorem chunk_bound_cex :
    chunk_text_with_overlap "aa. bbbbbbbb" 4
        = [{ text := "aa.", index := 0, total_chunks := 2 },
           { text := "aa. bbbbbbbb", index := 1, total_chunks := 2 }]
      ∧ chunkParts 4 (sentencesOf "aa. bbbbbbbb") = [["aa."], ["aa.", "bbbbbbbb"]]
      ∧ 4 + ("aa." : String).length < ("aa. bbbbbbbb" : String).length := by
  decide

/-- C2 amended (chunk bound): every chunk whose own final sentence fits within
`max_chunk_size` has text length at most `max_chunk_size` plus one separator
character plus the length of its leading overlap sentence (no allowance for the
first chunk); a chunk whose final sentence alone exceeds `max_chunk_size` (a
single oversized sentence, possibly preceded by the carried overlap sentence)
is exempt. -/
theorem chunk_bound (text : String) (max_chunk_size : Nat) :
    (chunk_text_with_overlap text max_chunk_size).map Chunk.text
        = (chunkParts max_chunk_size (sentencesOf text)).map joinSp
      ∧ boundsOK max_chunk_size (chunkParts max_chunk_size (sentencesOf text)) := by
  by_cases hl : sentencesOf text = []
  · refine ⟨chunk_texts_eq text max_chunk_size, ?_⟩
    rw [hl, chunkParts_nil_of_nil]
    trivial
  · exact ⟨chunk_texts_eq text max_chunk_size,
      (chunkParts_props max_chunk_size (sentencesOf text) hl).2.2⟩

/-- Witness for C2 at the concrete input `"aa. bb."` with `max_chunk_size = 4`,
whose first chunk is `["aa."]`: its final sentence fits in the limit and its
text length respects the amended bound. -/
theorem chunk_bound_witness :
    ("aa." : String).length ≤ 4 ∧ (joinSp ["aa."]).length ≤ 4 + 1 + 0 := by
  have h := chunk_bound "aa. bb." 4
  have hb : boundsOK 4 (chunkParts 4 (sentencesOf "aa. bb.")) := h.2
  have he : chunkParts 4 (sentencesOf "aa. bb.") = [["aa."], ["aa.", "bb."]] := by
    decide
  rw [he] at hb
  exact ⟨by decide, hb.1 (by decide)⟩

/-- C3 (index contiguity): the `index` values of the chunks returned by one
call are exactly `0 .. totalChunks-1` in emission order, and every chunk
carries `total_chunks` equal to the number of chunks returned. -/
theorem chunk_index_contiguity (text : String) (max_chunk_size : Nat) :
    (chunk_text_with_overlap text max_chunk_size).map Chunk.index
        = List.range (chunk_text_with_overlap text max_chunk_size).length
      ∧ ∀ c ∈ chunk_text_with_overlap text max_chunk_size,
          c.total_chunks = (chunk_text_with_overlap text max_chunk_size).length := by
  refine ⟨chunk_indices_eq text max_chunk_size, ?_⟩
  intro c hc
  rw [chunk_text_as_final] at hc
  rw [chunk_text_as_final, List.length_map]
  obtain ⟨p, hp, hpc⟩ := List.mem_map.mp hc
  rw [← hpc]

/-- Witness for C3 at the concrete input `"aa. bb."` with `max_chunk_size = 4`:
the two produced chunks carry indices `[0, 1]` and the chunk `("aa. bb.", 1, 2)`
reports `total_chunks` equal to the chunk count. -/
theorem chunk_index_contiguity_witness :
    (chunk_text_with_overlap "aa. bb." 4).map Chunk.index
        = List.range (chunk_text_with_overlap "aa. bb." 4).length
      ∧ ({ text := "aa. bb.", index := 1, total_chunks := 2 } : Chunk).total_chunks
          = (chunk_text_with_overlap "aa. bb." 4).length :=
  ⟨(chunk_index_contiguity "aa. bb." 4).1,
   (chunk_index_contiguity "aa. bb." 4).2
     { text := "aa. bb.", index := 1, total_chunks := 2 } (by decide)⟩

/-- C8 (chunker edge cases): an input that is empty after sentence splitting
and trimming yields no chunks, and an input consisting of exactly one
non-empty sentence yields exactly one chunk with index 0 and total_chunks 1. -/
theorem chunk_edge_cases (text : String) (max_chunk_size : Nat) (s : String) :
    (sentencesOf text = [] → chunk_text_with_overlap text max_chunk_size = [])
      ∧ (sentencesOf text = [s] →
          chunk_text_with_overlap text max_chunk_size
            = [{ text := s, index := 0, total_chunks := 1 }]) := by
  constructor
  · intro hl
    rw [chunk_text_as_final, hl, chunkFinal_nil_of_nil]
    rfl
  · intro hl
    rw [chunk_text_as_final, hl]
    have e1 : chunkFinal max_chunk_size [s] = [(s, 0)] := by
      have hneg : ¬(0 + s.length > max_chunk_size ∧ ([] : List String) ≠ []) :=
        fun hx => hx.2 rfl
      simp only [chunkFinal, List.foldl_cons, List.foldl_nil, chunkStep]
      rw [if_neg hneg]
      simp [joinSp]
    rw [e1]
    rfl

/-- Witness for C8: the empty input yields no chunks, and the one-sentence
input `"Hello"` yields the single chunk `("Hello", 0, 1)`. -/
theorem chunk_edge_cases_witness :
    chunk_text_with_overlap "" 5 = []
      ∧ chunk_text_with_overlap "Hello" 5
          = [{ text := "Hello", index := 0, total_chunks := 1 }] :=
  ⟨(chunk_edge_cases "" 5 "x").1 (by decide),
   (chunk_edge_cases "Hello" 5 "Hello").2 (by decide)⟩

/-! ## Batched transcript fetching (fetch_transcripts_batched) -/

def TRANSCRIPT_BATCH_SIZE : Nat := 5

def batchStep {α : Type} (n : Nat) (st : List (List α) × List α × Nat) (a : α) :
    List (List α) × List α × Nat :=
  if st.2.2 + 1 = n then (st.1 ++ [st.2.1 ++ [a]], [], 0)
  else (st.1, st.2.1 ++ [a], st.2.2 + 1)

/-- The consecutive slices `l[i:i+n]` visited by
`for i in range(0, len(l), n)`: slices of length `n`, with a shorter final
slice when `n` does not divide the length. -/
def toBatches {α : Type} (n : Nat) (l : List α) : List (List α) :=
  let r := l.foldl (batchStep n) ([], [], 0)
  if r.2.1.isEmpty then r.1 else r.1 ++ [r.2.1]

theorem batch_fold_flatten {α : Type} (n : Nat) :
    ∀ (l : List α) (st : List (List α) × List α × Nat),
      (l.foldl (batchStep n) st).1.flatten ++ (l.foldl (batchStep n) st).2.1
        = st.1.flatten ++ st.2.1 ++ l := by
  intro l
  induction l with
  | nil => intro st; simp
  | cons a t ih =>
    intro st
    rw [List.foldl_cons, ih (batchStep n st a)]
    unfold batchStep
    by_cases hc : st.2.2 + 1 = n
    · rw [if_pos hc]
      simp [List.append_assoc]
    · rw [if_neg hc]
      simp [List.append_assoc]

theorem toBatches_flatten {α : Type} (n : Nat) (l : List α) :
    (toBatches n l).flatten = l := by
  have h := batch_fold_flatten n l ([], [], 0)
  simp only [toBatches]
  by_cases hc : (l.foldl (batchStep n) ([], [], 0)).2.1.isEmpty = true
  · rw [if_pos hc]
    rw [List.isEmpty_iff.mp hc] at h
    simpa using h
  · rw [if_neg hc]
    rw [List.flatten_append]
    simpa using h

theorem foldl_toBatches {α β : Type} (f : β → α → β) (n : Nat) (l : List α) (init : β) :
    (toBatches n l).foldl (fun acc batch => batch.foldl f acc) init
      = l.foldl f init := by
  conv_rhs => rw [← toBatches_flatten n l]
  rw [List.foldl_flatten]

structure Video where
  id : String
  title : String
  publishedAt : String
deriving DecidableEq, Repr

structure TranscriptRow where
  id : String
  title : String
  publishedAt : String
  text : String
deriving DecidableEq, Repr

structure FailedVideo where
  id : String
  title : String
  status : String
  error : String
deriving DecidableEq, Repr

/-- Python truthiness of the fetched text on line 246 (`if not text:`): a
`None` or empty transcript counts as a failed fetch. -/
def fetchOk (r : Option String × Option String) : Bool :=
  !(r.1.getD "").isEmpty

def mkRow (v : Video) (r : Option String × Option String) : TranscriptRow :=
  { id := v.id, title := v.title, publishedAt := v.publishedAt, text := r.1.getD "" }

/-- The failure record appended on lines 247-254; `error or "Unknown transcript
fetch error"` substitutes the default for a `None` or empty reason. -/
def mkFailed (v : Video) (r : Option String × Option String) : FailedVideo :=
  { id := v.id, title := v.title, status := "failed",
    error := if (r.2.getD "").isEmpty then "Unknown transcript fetch error"
             else r.2.getD "" }

/-- Processing of one `(video, result)` pair of the zip loop (lines 244-263). -/
def fetchStep (fetch : String → Option String × Option String)
    (acc : List TranscriptRow × List FailedVideo) (v : Video) :
    List TranscriptRow × List FailedVideo :=
  if fetchOk (fetch v.id) then (acc.1 ++ [mkRow v (fetch v.id)], acc.2)
  else (acc.1, acc.2 ++ [mkFailed v (fetch v.id)])

/-- Embedding of `fetch_transcripts_batched` (lines 233-265).  The per-video
fetch outcome is the oracle `fetch` (one call per video id, as in the source);
`ThreadPoolExecutor.map` returns its results in input order, so each batch is
consumed by the zip loop in batch order. -/
def fetch_transcripts_batched (fetch : String → Option String × Option String)
    (videos : List Video) : List TranscriptRow × List FailedVideo :=
  (toBatches TRANSCRIPT_BATCH_SIZE videos).foldl
    (fun acc batch => batch.foldl (fetchStep fetch) acc) ([], [])

theorem fetch_fold_char (fetch : String → Option String × Option String) :
    ∀ (videos : List Video) (acc : List TranscriptRow × List FailedVideo),
      videos.foldl (fetchStep fetch) acc
        = (acc.1 ++ (videos.filter (fun v => fetchOk (fetch v.id))).map
              (fun v => mkRow v (fetch v.id)),
           acc.2 ++ (videos.filter (fun v => !fetchOk (fetch v.id))).map
              (fun v => mkFailed v (fetch v.id))) := by
  intro videos
  induction videos with
  | nil => intro acc; simp
  | cons v t ih =>
    intro acc
    rw [List.foldl_cons, ih]
    unfold fetchStep
    by_cases hv : fetchOk (fetch v.id) = true
    · rw [if_pos hv]
      simp [List.filter_cons, hv, List.append_assoc]
    · rw [if_neg hv]
      simp only [Bool.not_eq_true] at hv
      simp [List.filter_cons, hv, List.append_assoc]

theorem fetch_batched_eq (fetch : String → Option String × Option String)
    (videos : List Video) :
    fetch_transcripts_batched fetch videos
      = ((videos.filter (fun v => fetchOk (fetch v.id))).map
            (fun v => mkRow v (fetch v.id)),
         (videos.filter (fun v => !fetchOk (fetch v.id))).map
            (fun v => mkFailed v (fetch v.id))) := by
  unfold fetch_transcripts_batched
  rw [foldl_toBatches, fetch_fold_char]
  simp

theorem length_filter_split {α : Type} (p : α → Bool) (l : List α) :
    (l.filter p).length + (l.filter (fun a => !p a)).length = l.length := by
  induction l with
  | nil => rfl
  | cons a t ih =>
    by_cases h : p a = true
    · simp [List.filter_cons, h]
      omega
    · simp only [Bool.not_eq_true] at h
      simp [List.filter_cons, h]
      omega

theorem fetch_lengths (fetch : String → Option String × Option String)
    (videos : List Video) :
    (fetch_transcripts_batched fetch videos).1.length
      + (fetch_transcripts_batched fetch videos).2.length = videos.length := by
  rw [fetch_batched_eq]
  dsimp only
  rw [List.length_map, List.length_map]
  exact length_filter_split _ videos

/-- C10 (fetch result partition): `fetch_transcripts_batched` sends each input
video to exactly one of its two outputs — the succeeded rows are precisely the
videos whose fetch produced a (truthy) transcript, in input order, and the
failed records are precisely the remaining videos, in input order — so the two
output lengths sum to the input length. -/
theorem fetch_partition (fetch : String → Option String × Option String)
    (videos : List Video) :
    (fetch_transcripts_batched fetch videos).1
        = (videos.filter (fun v => fetchOk (fetch v.id))).map
            (fun v => mkRow v (fetch v.id))
      ∧ (fetch_transcripts_batched fetch videos).2
        = (videos.filter (fun v => !fetchOk (fetch v.id))).map
            (fun v => mkFailed v (fetch v.id))
      ∧ (fetch_transcripts_batched fetch videos).1.length
          + (fetch_transcripts_batched fetch videos).2.length = videos.length := by
  refine ⟨?_, ?_, fetch_lengths fetch videos⟩
  · rw [fetch_batched_eq]
  · rw [fetch_batched_eq]

theorem filter_all_but_one {α : Type} (p : α → Bool) :
    ∀ (l : List α) (i : Nat) (hi : i < l.length),
      (∀ j (hj : j < l.length), j ≠ i → p (l.get ⟨j, hj⟩) = true) →
      p (l.get ⟨i, hi⟩) = false →
      l.filter p = l.eraseIdx i
        ∧ l.filter (fun a => !p a) = [l.get ⟨i, hi⟩] := by
  intro l
  induction l with
  | nil => intro i hi; exact absurd hi (by simp)
  | cons v t ih =>
    intro i hi hall hfail
    cases i with
    | zero =>
      have hv : p v = false := hfail
      have htall : ∀ a ∈ t, p a = true := by
        intro a ha
        obtain ⟨⟨j, hj⟩, hget⟩ := List.mem_iff_get.mp ha
        have h9 := hall (j + 1) (by simpa using Nat.succ_lt_succ hj) (by omega)
        rw [List.get_cons_succ] at h9
        rw [hget] at h9
        exact h9
      constructor
      · rw [List.filter_cons_of_neg (by simp [hv]), List.eraseIdx_cons_zero]
        exact List.filter_eq_self.mpr htall
      · rw [List.filter_cons_of_pos (by simp [hv])]
        have h0 : t.filter (fun a => !p a) = [] := by
          refine List.filter_eq_nil_iff.mpr ?_
          intro a ha
          simp [htall a ha]
        rw [h0]
        rfl
    | succ j =>
      have hv : p v = true := hall 0 (by omega) (by omega)
      have hj : j < t.length := by simpa using hi
      have ihall : ∀ k (hk : k < t.length), k ≠ j → p (t.get ⟨k, hk⟩) = true := by
        intro k hk hkj
        have h9 := hall (k + 1) (by simpa using Nat.succ_lt_succ hk) (by omega)
        rwa [List.get_cons_succ] at h9
      have ihfail : p (t.get ⟨j, hj⟩) = false := by
        have h9 := hfail
        rwa [List.get_cons_succ] at h9
      obtain ⟨e1, e2⟩ := ih j hj ihall ihfail
      constructor
      · rw [List.filter_cons_of_pos hv, List.eraseIdx_cons_succ, e1]
      · rw [List.filter_cons_of_neg (by simp [hv]), e2, List.get_cons_succ]

/-- C5 (fetch isolation): if exactly one video's fetch fails, the other
videos all appear in the succeeded list, in order, with their fetched text;
the failed video is the sole entry of the failed list; and its recorded
reason string is non-empty. -/
theorem fetch_isolation (fetch : String → Option String × Option String)
    (videos : List Video) (i : Nat) (hi : i < videos.length)
    (hothers : ∀ j : Fin videos.length, (j : Nat) ≠ i →
      fetchOk (fetch (videos.get j).id) = true)
    (hfail : fetchOk (fetch (videos.get ⟨i, hi⟩).id) = false) :
    (fetch_transcripts_batched fetch videos).1
        = (videos.eraseIdx i).map (fun v => mkRow v (fetch v.id))
      ∧ (fetch_transcripts_batched fetch videos).2
          = [mkFailed (videos.get ⟨i, hi⟩) (fetch (videos.get ⟨i, hi⟩).id)]
      ∧ (fetch_transcripts_batched fetch videos).1.length = videos.length - 1
      ∧ (mkFailed (videos.get ⟨i, hi⟩) (fetch (videos.get ⟨i, hi⟩).id)).error ≠ "" := by
  obtain ⟨hfil, hfil2⟩ := filter_all_but_one (fun v => fetchOk (fetch v.id)) videos i hi
    (fun j hj hne => hothers ⟨j, hj⟩ hne) hfail
  have e0 := fetch_batched_eq fetch videos
  have e1 : (fetch_transcripts_batched fetch videos).1
      = (videos.filter (fun v => fetchOk (fetch v.id))).map
          (fun v => mkRow v (fetch v.id)) := by rw [e0]
  have e2 : (fetch_transcripts_batched fetch videos).2
      = (videos.filter (fun v => !fetchOk (fetch v.id))).map
          (fun v => mkFailed v (fetch v.id)) := by rw [e0]
  have e3 := fetch_lengths fetch videos
  have h2len : (fetch_transcripts_batched fetch videos).2.length = 1 := by
    rw [e2, hfil2]
    rfl
  refine ⟨?_, ?_, ?_, ?_⟩
  · rw [e1, hfil]
  · rw [e2, hfil2]
    rfl
  · omega
  · show (if ((fetch (videos.get ⟨i, hi⟩).id).2.getD "").isEmpty
        then "Unknown transcript fetch error"
        else (fetch (videos.get ⟨i, hi⟩).id).2.getD "") ≠ ""
    by_cases he : ((fetch (videos.get ⟨i, hi⟩).id).2.getD "").isEmpty = true
    · rw [if_pos he]
      decide
    · rw [if_neg he]
      intro hcontra
      rw [hcontra] at he
      exact he rfl

def demoFetch : String → Option String × Option String :=
  fun s => if s = "b" then (none, some "boom") else (some "texty", none)

def demoVideos : List Video :=
  [{ id := "a", title := "A", publishedAt := "p1" },
   { id := "b", title := "B", publishedAt := "p2" },
   { id := "c", title := "C", publishedAt := "p3" }]

theorem demo_lt : 1 < demoVideos.length := by decide

/-- Witness for C5: a concrete batch of three videos in which only `"b"`
fails; the other two are returned as rows and `"b"` is the sole failure with
the non-empty reason `"boom"`. -/
theorem fetch_isolation_witness :
    (fetch_transcripts_batched demoFetch demoVideos).1
        = (demoVideos.eraseIdx 1).map (fun v => mkRow v (demoFetch v.id))
      ∧ (fetch_transcripts_batched demoFetch demoVideos).2
          = [mkFailed (demoVideos.get ⟨1, demo_lt⟩) (demoFetch (demoVideos.get ⟨1, demo_lt⟩).id)]
      ∧ (fetch_transcripts_batched demoFetch demoVideos).1.length = demoVideos.length - 1
      ∧ (mkFailed (demoVideos.get ⟨1, demo_lt⟩) (demoFetch (demoVideos.get ⟨1, demo_lt⟩).id)).error ≠ "" :=
  fetch_isolation demoFetch demoVideos 1 demo_lt (by decide) (by decide)

/-! ## Per-item fetch with fallback (fetch_transcript_text) -/

/-- Embedding of `fetch_transcript_text` (lines 205-230).  `primary` models the
first `YouTubeTranscriptApi.get_transcript` attempt and `fallback` the second
`api.fetch` attempt, each returning the list of segment texts on success;
`Except.error e` models a raised exception whose formatted message is `e`.
Both attempts join the segments with spaces, strip, and reject transcripts
shorter than 200 characters from inside the same `try` block. -/
def fetch_transcript_text (primary fallback : String → Except String (List String))
    (video_id : String) : Option String × Option String :=
  match primary video_id with
  | Except.ok segs =>
    let text := pstrip (joinSp segs)
    if text.length < 200 then (none, some "Transcript too short")
    else (some text, none)
  | Except.error _ =>
    match fallback video_id with
    | Except.ok segs =>
      let text := pstrip (joinSp segs)
      if text.length < 200 then (none, some "Transcript too short")
      else (some text, none)
    | Except.error e => (none, some e)

/-- An attempt fails in the sense of the spec when it raises or returns a
transcript shorter than the 200-character minimum. -/
def attemptFails (r : Except String (List String)) : Bool :=
  match r with
  | Except.error _ => true
  | Except.ok segs => decide ((pstrip (joinSp segs)).length < 200)

def isErr (r : Except String (List String)) : Bool :=
  match r with
  | Except.error _ => true
  | Except.ok _ => false

/-- An attempt that returned segments whose joined, stripped text is below the
200-character minimum. -/
def okShort (r : Except String (List String)) : Bool :=
  match r with
  | Except.error _ => false
  | Except.ok segs => decide ((pstrip (joinSp segs)).length < 200)

def shortPrimary : String → Except String (List String) :=
  fun _ => Except.ok ["hi"]

def longFallback : String → Except String (List String) :=
  fun _ => Except.ok [List.asString (List.replicate 200 'a')]

set_option maxRecDepth 8000 in
/-- C6 counterexample: when the primary fetch succeeds but returns a
transcript below the 200-character threshold, the item is declared failed
("Transcript too short") without the fallback ever being attempted — here the
fallback would have returned a 200-character transcript and would not have
failed, yet the item is still marked failed. -/
theorem fetch_fallback_cex :
    (fetch_transcript_text shortPrimary longFallback "v").1 = none
      ∧ (fetch_transcript_text shortPrimary longFallback "v").2
          = some "Transcript too short"
      ∧ attemptFails (longFallback "v") = false := by
  decide

/-- C6 amended (fallback before failure): the fallback is attempted only when
the primary method raises; an item is marked failed iff the primary attempt
returned a too-short transcript (in which case the failure is declared
immediately, without consulting the fallback), or the primary raised and the
fallback also failed (raised or returned a too-short transcript). -/
theorem fetch_fallback (primary fallback : String → Except String (List String))
    (video_id : String) :
    ((fetch_transcript_text primary fallback video_id).1 = none
        ↔ (okShort (primary video_id) = true
            ∨ (isErr (primary video_id) = true
                ∧ attemptFails (fallback video_id) = true)))
      ∧ (okShort (primary video_id) = true →
          fetch_transcript_text primary fallback video_id
            = (none, some "Transcript too short")) := by
  unfold fetch_transcript_text okShort isErr attemptFails
  cases hp : primary video_id with
  | ok segs =>
    by_cases hlen : (pstrip (joinSp segs)).length < 200
    · simp [hlen]
    · simp [hlen]
  | error e =>
    cases hf : fallback video_id with
    | ok segs2 =>
      by_cases hlen : (pstrip (joinSp segs2)).length < 200
      · simp [hlen]
      · simp [hlen]
    | error e2 => simp

set_option maxRecDepth 8000 in
/-- Witness for C6 (amended) at the concrete oracles of the counterexample:
with a primary that returns a too-short transcript, the item is failed and the
failure characterization holds with the fallback never consulted. -/
theorem fetch_fallback_witness :
    ((fetch_transcript_text shortPrimary longFallback "w").1 = none
        ↔ (okShort (shortPrimary "w") = true
            ∨ (isErr (shortPrimary "w") = true
                ∧ attemptFails (longFallback "w") = true)))
      ∧ ((fetch_transcript_text shortPrimary longFallback "w")
            = (none, some "Transcript too short")) :=
  ⟨(fetch_fallback shortPrimary longFallback "w").1,
   (fetch_fallback shortPrimary longFallback "w").2 (by decide)⟩

/-! ## Dedup index (get_existing_transcript_video_ids) -/

/-- Payload fields of one stored Qdrant point that the dedup scan reads;
`none` models an absent key (`payload.get(...)` returning `None`). -/
structure StoredPayload where
  contentType : Option String
  youtubeVideoId : Option String
  sourceUrl : Option String
deriving DecidableEq, Repr

/-- Embedding of `re.search(r"[?&]v=([^&]+)", source_url).group(1)`: scanning
left to right, the first position where `?v=` or `&v=` is followed by at least
one non-`&` character yields the maximal run of non-`&` characters after the
`=`; positions where `[^&]+` cannot match at least one character are skipped,
as `re.search` moves on. -/
def parseV : List Char → Option (List Char)
  | [] => none
  | c :: rest =>
    if c = '?' ∨ c = '&' then
      match rest with
      | 'v' :: '=' :: tail =>
        let grp := tail.takeWhile (fun d => d != '&')
        if grp.isEmpty then parseV rest else some grp
      | _ => parseV rest
    else parseV rest

/-- Embedding of Python's substring test `needle in hay`. -/
def containsSub (needle : List Char) : List Char → Bool
  | [] => needle.isEmpty
  | c :: rest => needle.isPrefixOf (c :: rest) || containsSub needle rest

def YT_PATTERN : List Char := "youtube.com/watch?v=".toList

/-- The sourceUrl step of the scan loop (lines 178-182): when the stored URL
contains the watch-URL pattern and the regex matches, the captured id is
added. -/
def addUrlId (seen : Finset String) (p : StoredPayload) : Finset String :=
  let src := (p.sourceUrl.getD "").toList
  if containsSub YT_PATTERN src then
    match parseV src with
    | some g => insert g.asString seen
    | none => seen
  else seen

/-- Processing of one scrolled point (lines 171-182): points not tagged
`contentType = "transcript"` contribute nothing; otherwise the truthy
`youtubeVideoId` payload field is added, and then — independently, not only as
a fallback — the id parsed from the stored sourceUrl is added too. -/
def extract_point (seen : Finset String) (p : StoredPayload) : Finset String :=
  if p.contentType ≠ some "transcript" then seen
  else
    let seen1 :=
      match p.youtubeVideoId with
      | some v => if v ≠ "" then insert v seen else seen
      | none => seen
    addUrlId seen1 p

/-- Embedding of `get_existing_transcript_video_ids` (lines 157-186): the
`while True` cursor loop scrolls pages of 100 points until the returned cursor
is exhausted, visiting every stored point in order, 100 at a time. -/
def get_existing_transcript_video_ids (store : List StoredPayload) : Finset String :=
  (toBatches 100 store).foldl (fun seen page => page.foldl extract_point seen) ∅

/-- The identifiers one stored point actually contributes. -/
def pointYields (p : StoredPayload) (x : String) : Prop :=
  p.contentType = some "transcript" ∧
  ((p.youtubeVideoId = some x ∧ x ≠ "") ∨
   (containsSub YT_PATTERN (p.sourceUrl.getD "").toList = true ∧
    ∃ g, parseV (p.sourceUrl.getD "").toList = some g ∧ x = g.asString))

theorem mem_addUrlId (seen : Finset String) (p : StoredPayload) (x : String) :
    x ∈ addUrlId seen p
      ↔ x ∈ seen
        ∨ (containsSub YT_PATTERN (p.sourceUrl.getD "").toList = true
            ∧ ∃ g, parseV (p.sourceUrl.getD "").toList = some g ∧ x = g.asString) := by
  unfold addUrlId
  by_cases hcs : containsSub YT_PATTERN (p.sourceUrl.getD "").toList = true
  · rw [if_pos hcs]
    cases hpv : parseV (p.sourceUrl.getD "").toList with
    | none =>
      constructor
      · intro h
        exact Or.inl h
      · rintro (h | ⟨_, g, hg, _⟩)
        · exact h
        · exact Option.noConfusion hg
    | some g =>
      constructor
      · intro h
        rcases Finset.mem_insert.mp h with h | h
        · exact Or.inr ⟨hcs, g, rfl, h⟩
        · exact Or.inl h
      · rintro (h | ⟨_, g2, hg2, hx⟩)
        · exact Finset.mem_insert_of_mem h
        · have hgg : g = g2 := Option.some.inj hg2
          subst hgg
          rw [hx]
          exact Finset.mem_insert_self _ _
  · rw [if_neg hcs]
    constructor
    · intro h
      exact Or.inl h
    · rintro (h | ⟨hc2, _⟩)
      · exact h
      · exact absurd hc2 hcs

theorem mem_extract_point (seen : Finset String) (p : StoredPayload) (x : String) :
    x ∈ extract_point seen p ↔ x ∈ seen ∨ pointYields p x := by
  unfold extract_point pointYields
  by_cases hct : p.contentType = some "transcript"
  · rw [if_neg (not_not_intro hct)]
    rw [mem_addUrlId]
    cases hyv : p.youtubeVideoId with
    | none =>
      dsimp only
      constructor
      · rintro (h | h)
        · exact Or.inl h
        · exact Or.inr ⟨hct, Or.inr h⟩
      · rintro (h | ⟨_, (⟨hvx, _⟩ | h)⟩)
        · exact Or.inl h
        · exact Option.noConfusion hvx
        · exact Or.inr h
    | some v =>
      dsimp only
      by_cases hv : v = ""
      · subst hv
        rw [if_neg (not_not_intro rfl)]
        constructor
        · rintro (h | h)
          · exact Or.inl h
          · exact Or.inr ⟨hct, Or.inr h⟩
        · rintro (h | ⟨_, (⟨hvx, hxne⟩ | h)⟩)
          · exact Or.inl h
          · have hx : "" = x := Option.some.inj hvx
            exact absurd hx.symm hxne
          · exact Or.inr h
      · rw [if_pos hv]
        constructor
        · rintro (h | h)
          · rcases Finset.mem_insert.mp h with h | h
            · refine Or.inr ⟨hct, Or.inl ⟨by rw [h], ?_⟩⟩
              rw [h]
              exact hv
            · exact Or.inl h
          · exact Or.inr ⟨hct, Or.inr h⟩
        · rintro (h | ⟨_, (⟨hvx, _⟩ | h)⟩)
          · exact Or.inl (Finset.mem_insert_of_mem h)
          · have hx : v = x := Option.some.inj hvx
            subst hx
            exact Or.inl (Finset.mem_insert_self _ _)
          · exact Or.inr h
  · rw [if_pos hct]
    constructor
    · intro h
      exact Or.inl h
    · rintro (h | ⟨hc2, _⟩)
      · exact h
      · exact absurd hc2 hct

theorem mem_fold_extract :
    ∀ (l : List StoredPayload) (seen : Finset String) (x : String),
      x ∈ l.foldl extract_point seen ↔ x ∈ seen ∨ ∃ p ∈ l, pointYields p x := by
  intro l
  induction l with
  | nil => intro seen x; simp
  | cons p t ih =>
    intro seen x
    rw [List.foldl_cons, ih, mem_extract_point]
    simp only [List.mem_cons]
    constructor
    · rintro ((h | h) | ⟨q, hq, hy⟩)
      · exact Or.inl h
      · exact Or.inr ⟨p, Or.inl rfl, h⟩
      · exact Or.inr ⟨q, Or.inr hq, hy⟩
    · rintro (h | ⟨q, (hq | hq), hy⟩)
      · exact Or.inl (Or.inl h)
      · exact Or.inl (Or.inr (hq ▸ hy))
      · exact Or.inr ⟨q, hq, hy⟩

/-- C7 amended (dedup extraction): the dedup index contains exactly the
identifiers contributed by stored records tagged with the transcript content
type, where a record contributes its truthy `youtubeVideoId` payload field
and, independently — not only as a fallback when that field is absent — any id
parsed out of its stored watch-URL; records of other content types contribute
nothing, and the paginated scan visits every stored record. -/
theorem dedup_ids_spec (store : List StoredPayload) (x : String) :
    x ∈ get_existing_transcript_video_ids store ↔ ∃ p ∈ store, pointYields p x := by
  unfold get_existing_transcript_video_ids
  rw [foldl_toBatches extract_point 100 store ∅, mem_fold_extract]
  simp

/-- Reading of C7 as stated: the watch-URL pattern would be consulted only as
a fallback when the dedicated `youtubeVideoId` payload field is absent or
empty. -/
def claimDedupIds (store : List StoredPayload) : Finset String :=
  store.foldl (fun seen p =>
    if p.contentType ≠ some "transcript" then seen
    else
      match p.youtubeVideoId with
      | some v => if v ≠ "" then insert v seen else addUrlId seen p
      | none => addUrlId seen p) ∅

def cexStore : List StoredPayload :=
  [{ contentType := some "transcript", youtubeVideoId := some "AAA",
     sourceUrl := some "https://www.youtube.com/watch?v=BBB" }]

set_option maxRecDepth 8000 in
/-- C7 counterexample: a record carrying both the dedicated payload field
(`"AAA"`) and a watch-URL with a different id (`"BBB"`) contributes both ids —
the source parses the URL unconditionally (line 178 runs regardless of line
175), not only as a fallback when the field is absent, so the returned set is
not the one the claim describes. -/
theorem dedup_cex :
    "BBB" ∈ get_existing_transcript_video_ids cexStore
      ∧ "BBB" ∉ claimDedupIds cexStore
      ∧ "AAA" ∈ get_existing_transcript_video_ids cexStore := by
  decide

/-! ## Authorization check (verify_auth) -/

/-- Embedding of `verify_auth` (src/api/youtube-transcripts/index.py lines
401-407; the copy in src/api/scrape-medium-articles/index.py lines 292-302 is
identical).  `cronSecret` is `os.getenv("CRON_SECRET")` (`none` when unset)
and `authorization` the request header (`none` when absent); Python truthiness
(`if not cron_secret` / `if not authorization`) treats `None` and `""` alike. -/
def verify_auth (cronSecret authorization : Option String) : Bool :=
  if (cronSecret.getD "").isEmpty then true
  else if (authorization.getD "").isEmpty then false
  else authorization.getD "" == "Bearer " ++ cronSecret.getD ""

/-- C9 (open when unconfigured): with `CRON_SECRET` unset or empty,
`verify_auth` accepts every request; with a non-empty secret, it accepts
exactly the requests whose Authorization header is the string `"Bearer "`
followed by the secret. -/
theorem verify_auth_spec (cronSecret authorization : Option String) :
    ((cronSecret = none ∨ cronSecret = some "") →
        verify_auth cronSecret authorization = true)
      ∧ ∀ s, s ≠ "" → cronSecret = some s →
          (verify_auth cronSecret authorization = true
            ↔ authorization = some ("Bearer " ++ s)) := by
  constructor
  · rintro (h | h) <;> subst h <;> rfl
  · intro s hs hcs
    subst hcs
    have hbs : "Bearer " ++ s ≠ "" := by
      intro hc
      have h9 := congrArg String.length hc
      rw [String.length_append] at h9
      have h7 : ("Bearer " : String).length = 7 := rfl
      have h0 : ("" : String).length = 0 := rfl
      rw [h7, h0] at h9
      omega
    have h1 : ¬((some s).getD "").isEmpty = true := by
      intro hh
      exact hs ((String.isEmpty_iff s).mp hh)
    unfold verify_auth
    rw [if_neg h1]
    cases authorization with
    | none =>
      rw [if_pos (show ((none : Option String).getD "").isEmpty = true by decide)]
      constructor
      · intro h
        exact absurd h (by decide)
      · intro h
        exact Option.noConfusion h
    | some a =>
      by_cases ha : a = ""
      · subst ha
        rw [if_pos (show (((some "" : Option String)).getD "").isEmpty = true by decide)]
        constructor
        · intro h
          exact absurd h (by decide)
        · intro h
          exact absurd (Option.some.inj h).symm hbs
      · have h2 : ¬((some a).getD "").isEmpty = true := by
          intro hh
          exact ha ((String.isEmpty_iff a).mp hh)
        rw [if_neg h2]
        constructor
        · intro h
          exact congrArg some (eq_of_beq h)
        · intro h
          have := Option.some.inj h
          rw [this]
          exact beq_self_eq_true _

/-- Witness for C9: an unset secret admits a request with no header, and with
secret `"sec"` the header `"Bearer sec"` is accepted. -/
theorem verify_auth_witness :
    verify_auth none none = true
      ∧ (verify_auth (some "sec") (some "Bearer sec") = true
          ↔ (some "Bearer sec" : Option String) = some ("Bearer " ++ "sec")) :=
  ⟨(verify_auth_spec none none).1 (Or.inl rfl),
   (verify_auth_spec (some "sec") (some "Bearer sec")).2 "sec" (by decide) rfl⟩

/-! ## Run accounting (process_articles and sync_transcripts) -/

/-- One scraped Medium article as consumed by the accounting loop;
`pubDate = none` models a `publishedAt` string whose parse raises
(the `except (ValueError, TypeError): pass` path). -/
structure Article where
  title : String
  content : String
  pubDate : Option Int
deriving DecidableEq, Repr

structure MediumResults where
  success : Nat
  failed : Nat
  articles : List String
deriving DecidableEq, Repr

/-- Whether the date check on lines 184-190 of medium-articles.py skips the
article: the parsed publication date is strictly older than the threshold; a
parse failure skips nothing. -/
def dateSkips (a : Article) (date_threshold : Int) : Bool :=
  match a.pubDate with
  | some d => decide (d < date_threshold)
  | none => false

/-- One iteration of the `for url in urls` loop of `process_articles`
(src/api/medium-articles.py lines 177-249).  `fetchArticle` models
`fetch_article_content` (`none` = request failure or missing article tag),
`uploadOk` models the chunk/embed/upsert `try` block (`false` = exception).
The `articles` entries keep only the title; the source's extra per-article
fields do not affect the counts. -/
def articleStep (fetchArticle : String → Option Article) (uploadOk : String → Bool)
    (date_threshold : Int) (test_mode : Bool) (res : MediumResults) (url : String) :
    MediumResults :=
  match fetchArticle url with
  | none => { res with failed := res.failed + 1 }
  | some a =>
    if dateSkips a date_threshold then res
    else if a.content.length < 200 then { res with failed := res.failed + 1 }
    else if test_mode then
      { res with success := res.success + 1, articles := res.articles ++ [a.title] }
    else if uploadOk url then
      { res with success := res.success + 1, articles := res.articles ++ [a.title] }
    else { res with failed := res.failed + 1 }

/-- Embedding of `process_articles` (src/api/medium-articles.py lines
156-251). -/
def process_articles (fetchArticle : String → Option Article) (uploadOk : String → Bool)
    (date_threshold : Int) (urls : List String) (test_mode : Bool) : MediumResults :=
  if urls = [] then { success := 0, failed := 0, articles := [] }
  else urls.foldl (articleStep fetchArticle uploadOk date_threshold test_mode)
    { success := 0, failed := 0, articles := [] }

/-- The urls silently dropped by the date check (fetched successfully, then
`continue`d without touching any counter). -/
def dateSkippedCount (fetchArticle : String → Option Article) (date_threshold : Int)
    (urls : List String) : Nat :=
  (urls.filter (fun u =>
    match fetchArticle u with
    | some a => dateSkips a date_threshold
    | none => false)).length

theorem articleStep_counts (fetchArticle : String → Option Article)
    (uploadOk : String → Bool) (date_threshold : Int) (test_mode : Bool)
    (res : MediumResults) (url : String) :
    (articleStep fetchArticle uploadOk date_threshold test_mode res url).success
        + (articleStep fetchArticle uploadOk date_threshold test_mode res url).failed
        + (if (match fetchArticle url with
               | some a => dateSkips a date_threshold
               | none => false) = true then 1 else 0)
      = res.success + res.failed + 1 := by
  unfold articleStep
  cases hfa : fetchArticle url with
  | none => simp; omega
  | some a =>
    dsimp only
    split_ifs <;> simp <;> omega

theorem articles_fold_counts (fetchArticle : String → Option Article)
    (uploadOk : String → Bool) (date_threshold : Int) (test_mode : Bool) :
    ∀ (urls : List String) (res : MediumResults),
      (urls.foldl (articleStep fetchArticle uploadOk date_threshold test_mode) res).success
          + (urls.foldl (articleStep fetchArticle uploadOk date_threshold test_mode) res).failed
          + dateSkippedCount fetchArticle date_threshold urls
        = res.success + res.failed + urls.length := by
  intro urls
  induction urls with
  | nil => intro res; simp [dateSkippedCount]
  | cons u t ih =>
    intro res
    rw [List.foldl_cons]
    have h1 := ih (articleStep fetchArticle uploadOk date_threshold test_mode res u)
    have h2 := articleStep_counts fetchArticle uploadOk date_threshold test_mode res u
    have h3 : dateSkippedCount fetchArticle date_threshold (u :: t)
        = dateSkippedCount fetchArticle date_threshold t
          + (if (match fetchArticle u with
                 | some a => dateSkips a date_threshold
                 | none => false) = true then 1 else 0) := by
      unfold dateSkippedCount
      rw [List.filter_cons]
      split <;> simp
    by_cases hc : (match fetchArticle u with
        | some a => dateSkips a date_threshold
        | none => false) = true
    · rw [if_pos hc] at h2
      rw [if_pos hc] at h3
      simp [List.length_cons]
      omega
    · rw [if_neg hc] at h2
      rw [if_neg hc] at h3
      simp [List.length_cons]
      omega

/-- Rows and per-video upload records produced from one transcript row
(lines 273-310).  The payload's `baseId` (a fresh UUID), `sourceUrl` and
`uploadedAt` timestamp are nondeterministic or derived I/O values that no
claim mentions; they are omitted from the embedded chunk row. -/
structure ChunkRow where
  text : String
  chunkIndex : Nat
  totalChunks : Nat
  title : String
  youtubeVideoId : String
  publishedAt : String
deriving DecidableEq, Repr

structure UploadedVideo where
  id : String
  title : String
  status : String
  chunks : Nat
deriving DecidableEq, Repr

def buildStep (acc : List ChunkRow × List UploadedVideo) (row : TranscriptRow) :
    List ChunkRow × List UploadedVideo :=
  let full_text := "# " ++ row.title ++ "\n\n" ++ row.text
  let chunks := chunk_text_with_overlap full_text CHUNK_SIZE
  if chunks.isEmpty then acc
  else
    (acc.1 ++ chunks.map (fun c =>
       { text := c.text, chunkIndex := c.index, totalChunks := c.total_chunks,
         title := row.title, youtubeVideoId := row.id, publishedAt := row.publishedAt }),
     acc.2 ++ [{ id := row.id, title := row.title, status := "uploaded",
                 chunks := chunks.length }])

/-- Embedding of `build_chunks_for_qdrant` (lines 268-312).  The source would
drop (`continue`) a row whose full text chunks to nothing, but that guard is
provably unreachable: the full text starts with `"# "`, so the chunker always
returns at least one chunk (`chunks_of_row_ne_nil` below). -/
def build_chunks_for_qdrant (transcript_rows : List TranscriptRow) :
    List ChunkRow × List UploadedVideo :=
  transcript_rows.foldl buildStep ([], [])

theorem chunks_of_row_ne_nil (title text : String) :
    (chunk_text_with_overlap ("# " ++ title ++ "\n\n" ++ text) CHUNK_SIZE).isEmpty
      = false := by
  have htl : ("# " ++ title ++ "\n\n" ++ text).toList
      = '#' :: (' ' :: ((title.data ++ "\n\n".data) ++ text.data)) := by
    show ("# " ++ title ++ "\n\n" ++ text).data = _
    rw [String.data_append, String.data_append, String.data_append]
    rfl
  have hsent : sentencesOf ("# " ++ title ++ "\n\n" ++ text) ≠ [] :=
    sentencesOf_ne_nil_of_head _ '#' _ htl (by decide)
  have hne := chunk_text_ne_nil ("# " ++ title ++ "\n\n" ++ text) CHUNK_SIZE hsent
  cases hx : chunk_text_with_overlap ("# " ++ title ++ "\n\n" ++ text) CHUNK_SIZE with
  | nil => exact absurd hx hne
  | cons a t => rfl

structure SyncResult where
  uploaded : Nat
  skipped : Nat
  failed : Nat
  videos_uploaded : List UploadedVideo
  videos_failed : List FailedVideo
deriving DecidableEq, Repr

/-- Embedding of the result accounting of `sync_transcripts` (lines 355-398):
given the discovered new videos (after dedup) and the count of videos skipped
as already ingested, the result carries the number of fetched videos that
produced chunks (`uploaded`), the dedup skip count (`skipped`), the number of
failed fetches (`failed`), and the per-video status records (the source
returns them concatenated as `"videos": uploaded_videos + failed_videos`;
they are kept here as the two typed lists).  With no new videos the early
return reports zeros and an empty video list.  The embedding/upsert stage,
run only when chunk rows exist, does not change the result. -/
def sync_transcripts (fetch : String → Option String × Option String)
    (new_videos : List Video) (skipped_existing : Nat) : SyncResult :=
  if new_videos = [] then
    { uploaded := 0, skipped := skipped_existing, failed := 0,
      videos_uploaded := [], videos_failed := [] }
  else
    let fr := fetch_transcripts_batched fetch new_videos
    let bc := build_chunks_for_qdrant fr.1
    { uploaded := bc.2.length, skipped := skipped_existing, failed := fr.2.length,
      videos_uploaded := bc.2, videos_failed := fr.2 }

theorem build_fold_count :
    ∀ (rows : List TranscriptRow) (acc : List ChunkRow × List UploadedVideo),
      (rows.foldl buildStep acc).2.length = acc.2.length + rows.length := by
  intro rows
  induction rows with
  | nil => intro acc; simp
  | cons r t ih =>
    intro acc
    rw [List.foldl_cons]
    have h1 := ih (buildStep acc r)
    have h2 : (buildStep acc r).2.length = acc.2.length + 1 := by
      simp only [buildStep]
      rw [if_neg (by rw [chunks_of_row_ne_nil]; exact Bool.false_ne_true)]
      simp
    rw [h1, h2]
    simp [List.length_cons]
    omega

theorem build_chunks_count (rows : List TranscriptRow) :
    (build_chunks_for_qdrant rows).2.length = rows.length := by
  have h := build_fold_count rows ([], [])
  simpa using h

theorem mkFailed_error_ne (v : Video) (r : Option String × Option String) :
    (mkFailed v r).error ≠ "" := by
  show (if (r.2.getD "").isEmpty then "Unknown transcript fetch error"
        else r.2.getD "") ≠ ""
  by_cases he : (r.2.getD "").isEmpty = true
  · rw [if_pos he]
    decide
  · rw [if_neg he]
    intro hcontra
    rw [hcontra] at he
    exact he rfl

def cexFetchArticle : String → Option Article :=
  fun _ => some { title := "T", content := "x", pubDate := some 0 }

def cexFailArticle : String → Option Article :=
  fun _ => none

/-- C4 counterexample, in two parts.  First: a discovered article that fetches
successfully but whose parsed publication date is older than the threshold is
dropped by `continue` without touching any counter — the run reports
`success = 0` and `failed = 0` (the medium result carries no skip count at
all) although one item was discovered, so the item is not reflected in any
count.  Second: a medium item whose fetch fails is counted
(`failed = 1`) but the entire returned result — whose fields mirror exactly
the keys of the source's result dict: `success`, `failed`, `articles`
(successes only) — contains no reason for it, so the claim's "failed count
with a recorded reason" fails for the medium pipeline. -/
theorem no_silent_drops_cex :
    (process_articles cexFetchArticle (fun _ => true) 10 ["u"] true
        = { success := 0, failed := 0, articles := [] }
      ∧ (["u"] : List String).length = 1)
      ∧ process_articles cexFailArticle (fun _ => true) 10 ["u2"] true
          = { success := 0, failed := 1, articles := [] } := by
  decide

/-- C4 amended (no silent drops): every discovered item is reflected in the
returned result, except in the medium pipeline, where (a) articles filtered
by the date check are dropped without contributing to any count (the medium
result has no skip count), and (b) failures are recorded only as a count,
with no per-item reason.  Everything else holds as claimed: medium items
contribute to success or failed (success + failed + date-skipped = number of
urls), every youtube video contributes to uploaded, skipped, or failed
(uploaded + failed = number of new videos — fetched documents always produce
at least one chunk, because the prepended `"# "` title heading survives
splitting, so the zero-chunk guard never drops a row — and skipped always
equals the dedup skip count), and every failed youtube video carries a
non-empty recorded reason in the result's video list. -/
theorem no_silent_drops (fetchArticle : String → Option Article)
    (uploadOk : String → Bool) (date_threshold : Int) (urls : List String)
    (test_mode : Bool) (fetch : String → Option String × Option String)
    (new_videos : List Video) (skipped_existing : Nat) :
    (process_articles fetchArticle uploadOk date_threshold urls test_mode).success
        + (process_articles fetchArticle uploadOk date_threshold urls test_mode).failed
        + dateSkippedCount fetchArticle date_threshold urls
      = urls.length
    ∧ (sync_transcripts fetch new_videos skipped_existing).uploaded
        + (sync_transcripts fetch new_videos skipped_existing).failed
      = new_videos.length
    ∧ (sync_transcripts fetch new_videos skipped_existing).skipped
      = skipped_existing
    ∧ ∀ fv ∈ (sync_transcripts fetch new_videos skipped_existing).videos_failed,
        fv.error ≠ "" := by
  refine ⟨?_, ?_, ?_, ?_⟩
  · unfold process_articles
    by_cases hu : urls = []
    · rw [if_pos hu]
      subst hu
      simp [dateSkippedCount]
    · rw [if_neg hu]
      have h := articles_fold_counts fetchArticle uploadOk date_threshold test_mode urls
        { success := 0, failed := 0, articles := [] }
      simpa using h
  · simp only [sync_transcripts]
    by_cases hv : new_videos = []
    · rw [if_pos hv]
      subst hv
      rfl
    · rw [if_neg hv]
      dsimp only
      have hbc := build_chunks_count (fetch_transcripts_batched fetch new_videos).1
      have hpart := fetch_lengths fetch new_videos
      omega
  · simp only [sync_transcripts]
    by_cases hv : new_videos = []
    · rw [if_pos hv]
    · rw [if_neg hv]
  · simp only [sync_transcripts]
    by_cases hv : new_videos = []
    · rw [if_pos hv]
      intro fv hfv
      exact absurd hfv (by simp)
    · rw [if_neg hv]
      dsimp only
      intro fv hfv
      rw [fetch_batched_eq fetch new_videos] at hfv
      dsimp only at hfv
      obtain ⟨v, _, hvv⟩ := List.mem_map.mp hfv
      rw [← hvv]
      exact mkFailed_error_ne v (fetch v.id)

/-- Witness for C4 (amended) at concrete inputs: one date-skipped medium url,
and the three-video youtube batch of the C5 witness, in which `"b"` fails with
the recorded reason `"boom"`. -/
theorem no_silent_drops_witness :
    (process_articles cexFetchArticle (fun _ => true) 10 ["u"] true).success
        + (process_articles cexFetchArticle (fun _ => true) 10 ["u"] true).failed
        + dateSkippedCount cexFetchArticle 10 ["u"]
      = (["u"] : List String).length
    ∧ (sync_transcripts demoFetch demoVideos 4).uploaded
        + (sync_transcripts demoFetch demoVideos 4).failed = demoVideos.length
    ∧ (sync_transcripts demoFetch demoVideos 4).skipped = 4
    ∧ ({ id := "b", title := "B", status := "failed", error := "boom" }
        : FailedVideo).error ≠ "" := by
  have h := no_silent_drops cexFetchArticle (fun _ => true) 10 ["u"] true
    demoFetch demoVideos 4
  exact ⟨h.1, h.2.1, h.2.2.1,
    h.2.2.2 { id := "b", title := "B", status := "failed", error := "boom" }
      (by decide)⟩

end BrianClone
